import Mathlib

/-!
Shallow embedding of the repository goit-algo2-hw-07.

* `Task1` embeds `task_1.py`: range sums over a mutable array with an
  LRU cache (`OrderedDict`-based) keyed by the pair `(L, R)`, plus the
  cached/uncached query and update functions.
* `Task2` embeds `task_2.py`: a splay tree used as a memoization store
  for Fibonacci numbers (`fibonacci_splay`).

Modelling conventions: Python lists of ints become `List Int`; array
indices and range bounds are naturals (the program only ever uses
non-negative indices); Python's `OrderedDict` becomes an association
list ordered oldest-first/newest-last; a raised `IndexError` becomes
`Except.error`; `None` becomes `none`; mutation becomes explicit state
passing (each mutating method returns the new structure).
-/

namespace Task1

/-- Python slice `a[l:h]` for non-negative bounds: the elements at
indices `l, l+1, ..., h-1`, silently clamped to the list. -/
def pySlice (a : List Int) (l h : Nat) : List Int :=
  (a.take h).drop l

/-- `range_sum_no_cache(array, L, R)`: `sum(array[L:R + 1])`. -/
def range_sum_no_cache (array : List Int) (L R : Nat) : Int :=
  (pySlice array L (R + 1)).sum

/-- `update_no_cache(array, index, value)`: `array[index] = value`;
a Python `IndexError` (index beyond the list) is `Except.error`. -/
def update_no_cache (array : List Int) (index : Nat) (value : Int) :
    Except Unit (List Int) :=
  if index < array.length then .ok (array.set index value) else .error ()

/-- The `LRUCache` class: `capacity` plus the `OrderedDict` contents,
kept as an association list, least-recently-used first, most-recently-used
last (the `OrderedDict` insertion/`move_to_end` order). -/
structure LRUCache (κ ν : Type) where
  capacity : Int
  cache : List (κ × ν)
deriving Repr, DecidableEq

/-- `LRUCache.__init__(capacity=1000)`: stores the capacity unchecked and
starts from an empty dict. -/
def LRUCache.init (κ ν : Type) (capacity : Int := 1000) : LRUCache κ ν :=
  ⟨capacity, []⟩

/-- First value stored under `key` (dict lookup `self.cache[key]`). -/
def lookupKV [DecidableEq κ] (key : κ) : List (κ × ν) → Option ν
  | [] => none
  | (k, v) :: rest => if k = key then some v else lookupKV key rest

/-- Drop every pair whose key is `key` (at most one is ever present). -/
def eraseKey [DecidableEq κ] (key : κ) (l : List (κ × ν)) : List (κ × ν) :=
  l.filter (fun p => p.1 ≠ key)

/-- `LRUCache.get(key)`: on a miss return `None` and leave the dict alone;
on a hit `move_to_end(key)` and return the stored value. -/
def LRUCache.get [DecidableEq κ] (c : LRUCache κ ν) (key : κ) :
    Option ν × LRUCache κ ν :=
  match lookupKV key c.cache with
  | none => (none, c)
  | some v => (some v, ⟨c.capacity, eraseKey key c.cache ++ [(key, v)]⟩)

/-- `LRUCache.put(key, value)`: `self.cache[key] = value` followed by
`move_to_end(key)` nets out to erase-then-append; then if
`len(self.cache) > self.capacity`, `popitem(last=False)` drops the
oldest entry (the head). -/
def LRUCache.put [DecidableEq κ] (c : LRUCache κ ν) (key : κ) (value : ν) :
    LRUCache κ ν :=
  let l := eraseKey key c.cache ++ [(key, value)]
  if (l.length : Int) > c.capacity then ⟨c.capacity, l.drop 1⟩
  else ⟨c.capacity, l⟩

/-- `LRUCache.invalidate(condition_func)`: delete every entry whose key
satisfies the condition. -/
def LRUCache.invalidate (c : LRUCache κ ν) (cond : κ → Bool) : LRUCache κ ν :=
  ⟨c.capacity, c.cache.filter (fun p => ! cond p.1)⟩

/-- `range_sum_with_cache(array, L, R, lru_cache)`: consult the cache at
`(L, R)`; on a hit return the cached sum, on a miss compute
`sum(array[L:R + 1])` and `put` it. -/
def range_sum_with_cache (array : List Int) (L R : Nat)
    (lru_cache : LRUCache (Nat × Nat) Int) : Int × LRUCache (Nat × Nat) Int :=
  let g := lru_cache.get (L, R)
  match g.1 with
  | some v => (v, g.2)
  | none =>
    let s := (pySlice array L (R + 1)).sum
    (s, g.2.put (L, R) s)

/-- `update_with_cache(array, index, value, lru_cache)`:
`array[index] = value` (raising `IndexError` before any effect when the
index is out of range), then invalidate every cached `(L, R)` with
`L <= index <= R`. -/
def update_with_cache (array : List Int) (index : Nat) (value : Int)
    (lru_cache : LRUCache (Nat × Nat) Int) :
    Except Unit (List Int × LRUCache (Nat × Nat) Int) :=
  if index < array.length then
    .ok (array.set index value,
      lru_cache.invalidate (fun k => decide (k.1 ≤ index) && decide (index ≤ k.2)))
  else .error ()

/-- One request of the task-1 workload: a range query or a point update. -/
inductive Op where
  | rangeQuery (L R : Nat)
  | pointUpdate (index : Nat) (value : Int)
deriving Repr, DecidableEq

/-- Run a request sequence without the cache, collecting the query
results; `none` when an update raises. -/
def runNoCache : List Int → List Op → Option (List Int)
  | _, [] => some []
  | a, .rangeQuery L R :: ops =>
    (runNoCache a ops).map (range_sum_no_cache a L R :: ·)
  | a, .pointUpdate i v :: ops =>
    match update_no_cache a i v with
    | .ok a' => runNoCache a' ops
    | .error _ => none

/-- Run a request sequence through the LRU-cached functions, collecting
the query results; `none` when an update raises. -/
def runWithCache : List Int → LRUCache (Nat × Nat) Int → List Op →
    Option (List Int)
  | _, _, [] => some []
  | a, c, .rangeQuery L R :: ops =>
    let r := range_sum_with_cache a L R c
    (runWithCache a r.2 ops).map (r.1 :: ·)
  | a, c, .pointUpdate i v :: ops =>
    match update_with_cache a i v c with
    | .ok (a', c') => runWithCache a' c' ops
    | .error _ => none

/-- An operation is in range for an array of length `len`. -/
def inRange (len : Nat) : Op → Bool
  | .rangeQuery L R => decide (L < len) && decide (R < len)
  | .pointUpdate i _ => decide (i < len)

/-- One call of the task-1 cache API, for stating whole-sequence
invariants of `LRUCache`. -/
inductive CacheOp (κ ν : Type) where
  | get (key : κ)
  | put (key : κ) (value : ν)
  | invalidate (cond : κ → Bool)

/-- Apply one cache call, keeping the cache state. -/
def applyCacheOp [DecidableEq κ] (c : LRUCache κ ν) : CacheOp κ ν → LRUCache κ ν
  | .get k => (c.get k).2
  | .put k v => c.put k v
  | .invalidate f => c.invalidate f

end Task1

namespace Task2

/-- A splay-tree node graph: `nil` is Python's `None`, `node` is a
`SplayNode(key, value)` with its `left`/`right` children. A `SplayTree`
object is identified with its `root`, which every method reassigns. -/
inductive SplayTree (β : Type) where
  | nil : SplayTree β
  | node (key : Nat) (value : β) (left right : SplayTree β) : SplayTree β
deriving Repr, DecidableEq

/-- `SplayTree._right_rotate(x)`: rotate right around `x`; only ever
called with `x.left` non-empty (otherwise returned unchanged). -/
def SplayTree.right_rotate : SplayTree β → SplayTree β
  | .node k v (.node lk lv ll lr) r => .node lk lv ll (.node k v lr r)
  | t => t

/-- `SplayTree._left_rotate(x)`: rotate left around `x`; only ever
called with `x.right` non-empty (otherwise returned unchanged). -/
def SplayTree.left_rotate : SplayTree β → SplayTree β
  | .node k v l (.node rk rv rl rr) => .node rk rv (.node k v l rl) rr
  | t => t

/-- `SplayTree._splay(root, key)`, translated clause by clause: the
zig-zig / zig-zag recursive splay that pulls `key` (or the last node on
the search path towards it) to the root. -/
def splay : SplayTree β → Nat → SplayTree β
  | .nil, _ => .nil
  | .node k v l r, key =>
    if key = k then .node k v l r
    else if key < k then
      match l with
      | .nil => .node k v .nil r
      | .node lk lv ll lr =>
        let root :=
          if key < lk then
            SplayTree.right_rotate (.node k v (.node lk lv (splay ll key) lr) r)
          else if lk < key then
            let lr' := splay lr key
            let l' :=
              match lr' with
              | .nil => SplayTree.node lk lv ll .nil
              | _ => SplayTree.left_rotate (.node lk lv ll lr')
            SplayTree.node k v l' r
          else SplayTree.node k v (.node lk lv ll lr) r
        match root with
        | .node k2 v2 .nil r2 => .node k2 v2 .nil r2
        | t => SplayTree.right_rotate t
    else
      match r with
      | .nil => .node k v l .nil
      | .node rk rv rl rr =>
        let root :=
          if rk < key then
            SplayTree.left_rotate (.node k v l (.node rk rv rl (splay rr key)))
          else if key < rk then
            let rl' := splay rl key
            let r' :=
              match rl' with
              | .nil => SplayTree.node rk rv .nil rr
              | _ => SplayTree.right_rotate (.node rk rv rl' rr)
            SplayTree.node k v l r'
          else SplayTree.node k v l (.node rk rv rl rr)
        match root with
        | .node k2 v2 l2 .nil => .node k2 v2 l2 .nil
        | t => SplayTree.left_rotate t

/-- `SplayTree.search(key)`: splay at `key`, reassign the root, and
return the root's value when its key matches (else `None`), paired with
the new tree. -/
def SplayTree.search (t : SplayTree β) (key : Nat) : Option β × SplayTree β :=
  let root := splay t key
  match root with
  | .node k v l r => if k = key then (some v, .node k v l r) else (none, .node k v l r)
  | .nil => (none, .nil)

/-- `SplayTree.insert(key, value)`: on an empty tree make the sole node;
else splay at `key`, overwrite the value if the key surfaced, otherwise
split the splayed tree at the root and make the new node the root.
(Splaying a non-empty tree never yields `nil`; that branch is dead.) -/
def SplayTree.insert (t : SplayTree β) (key : Nat) (value : β) : SplayTree β :=
  match t with
  | .nil => .node key value .nil .nil
  | t =>
    match splay t key with
    | .nil => .nil
    | .node k v l r =>
      if k = key then .node k value l r
      else if key < k then .node key value l (.node k v .nil r)
      else .node key value (.node k v l .nil) r

/-- In-order traversal of the stored `(key, value)` pairs. -/
def inorder : SplayTree β → List (Nat × β)
  | .nil => []
  | .node k v l r => inorder l ++ (k, v) :: inorder r

/-- In-order key sequence. -/
def keys (t : SplayTree β) : List Nat :=
  (inorder t).map Prod.fst

/-- The key at the root, if any. -/
def rootKey : SplayTree β → Option Nat
  | .nil => none
  | .node k _ _ _ => some k

/-- The binary-search-tree ordering invariant. -/
def IsBST : SplayTree β → Prop
  | .nil => True
  | .node k _ l r =>
    (∀ x ∈ keys l, x < k) ∧ (∀ x ∈ keys r, k < x) ∧ IsBST l ∧ IsBST r

instance instDecidableIsBST : (t : SplayTree β) → Decidable (IsBST t)
  | .nil => .isTrue trivial
  | .node k _ l r =>
    letI dl := instDecidableIsBST (β := β) l
    letI dr := instDecidableIsBST (β := β) r
    decidable_of_iff
      ((∀ x ∈ keys l, x < k) ∧ (∀ x ∈ keys r, k < x) ∧ IsBST l ∧ IsBST r)
      Iff.rfl

/-- The mathematical Fibonacci sequence of the spec:
`fib 0 = 0`, `fib 1 = 1`, `fib (n+2) = fib n + fib (n+1)`. -/
def fib : Nat → Nat
  | 0 => 0
  | 1 => 1
  | n + 2 => fib n + fib (n + 1)

/-- `fibonacci_splay(n, tree)`: consult the tree (a splaying `search`
that restructures it), return a hit outright; on a miss compute `n`
itself when `n < 2`, else recurse on `n - 1` then `n - 2` threading the
tree state, and `insert` the result before returning. -/
def fibonacci_splay (n : Nat) (tree : SplayTree Nat) : Nat × SplayTree Nat :=
  match tree.search n with
  | (some v, t') => (v, t')
  | (none, t') =>
    if h : n < 2 then (n, t'.insert n n)
    else
      let p1 := fibonacci_splay (n - 1) t'
      let p2 := fibonacci_splay (n - 2) p1.2
      let result := p1.1 + p2.1
      (result, p2.2.insert n result)
termination_by n
decreasing_by
  all_goals omega

/-- Every `(n, v)` pair stored in the tree is a correct Fibonacci entry:
the tree is a coherent memo table. -/
def Coherent (t : SplayTree Nat) : Prop :=
  ∀ p ∈ inorder t, p.2 = fib p.1

instance : (t : SplayTree Nat) → Decidable (Coherent t) := fun t =>
  List.decidableBAll _ (inorder t)

/-- One call of the task-2 tree API: `insert` or `search`. -/
inductive TreeOp (β : Type) where
  | ins (key : Nat) (value : β)
  | find (key : Nat)

/-- Apply one tree call, keeping the tree state. -/
def applyTreeOp (t : SplayTree β) : TreeOp β → SplayTree β
  | .ins k v => t.insert k v
  | .find k => (t.search k).2

end Task2

namespace Task1

theorem lookupKV_mem [DecidableEq κ] {key : κ} {l : List (κ × ν)} {v : ν}
    (h : lookupKV key l = some v) : (key, v) ∈ l := by
  induction l with
  | nil => simp [lookupKV] at h
  | cons p rest ih =>
    obtain ⟨k, w⟩ := p
    simp only [lookupKV] at h
    split at h
    · next hk =>
      injection h with hw
      subst hk hw
      exact List.mem_cons_self _ _
    · exact List.mem_cons_of_mem _ (ih h)

theorem lookupKV_eq_none [DecidableEq κ] {key : κ} {l : List (κ × ν)}
    (h : ∀ p ∈ l, p.1 ≠ key) : lookupKV key l = none := by
  induction l with
  | nil => rfl
  | cons p rest ih =>
    obtain ⟨k, w⟩ := p
    have hk : k ≠ key := h (k, w) (List.mem_cons_self _ _)
    simp only [lookupKV, if_neg hk]
    exact ih fun q hq => h q (List.mem_cons_of_mem _ hq)

theorem lookupKV_map_self [DecidableEq κ] {key : κ} {l : List κ} {f : κ → ν}
    (h : key ∈ l) : lookupKV key (l.map fun k => (k, f k)) = some (f key) := by
  induction l with
  | nil => simp at h
  | cons x rest ih =>
    by_cases hx : x = key
    · subst hx
      simp [lookupKV]
    · rcases List.mem_cons.mp h with h1 | h1
      · exact absurd h1.symm hx
      · simpa [lookupKV, hx] using ih h1

theorem mem_eraseKey [DecidableEq κ] {key : κ} {l : List (κ × ν)} {p : κ × ν}
    (h : p ∈ eraseKey key l) : p ∈ l :=
  List.mem_of_mem_filter h

theorem eraseKey_of_forall_ne [DecidableEq κ] {key : κ} {l : List (κ × ν)}
    (h : ∀ p ∈ l, p.1 ≠ key) : eraseKey key l = l := by
  unfold eraseKey
  exact List.filter_eq_self.mpr fun p hp => by simpa using h p hp

theorem length_eraseKey_le [DecidableEq κ] (key : κ) (l : List (κ × ν)) :
    (eraseKey key l).length ≤ l.length :=
  List.length_filter_le _ _

theorem eraseKey_cons_self [DecidableEq κ] (key : κ) (w : ν) (rest : List (κ × ν)) :
    eraseKey key ((key, w) :: rest) = eraseKey key rest := by
  simp [eraseKey, List.filter_cons]

theorem eraseKey_cons_ne [DecidableEq κ] {k key : κ} (hk : k ≠ key) (w : ν)
    (rest : List (κ × ν)) :
    eraseKey key ((k, w) :: rest) = (k, w) :: eraseKey key rest := by
  simp [eraseKey, List.filter_cons, hk]

theorem length_eraseKey_lt [DecidableEq κ] {key : κ} {l : List (κ × ν)} {v : ν}
    (h : lookupKV key l = some v) : (eraseKey key l).length < l.length := by
  induction l with
  | nil => simp [lookupKV] at h
  | cons p rest ih =>
    obtain ⟨k, w⟩ := p
    by_cases hk : k = key
    · subst hk
      rw [eraseKey_cons_self, List.length_cons]
      exact Nat.lt_succ_of_le (length_eraseKey_le _ _)
    · simp only [lookupKV] at h
      rw [if_neg hk] at h
      rw [eraseKey_cons_ne hk, List.length_cons, List.length_cons]
      exact Nat.succ_lt_succ (ih h)

theorem put_cache_cases [DecidableEq κ] (c : LRUCache κ ν) (k : κ) (v : ν) :
    (((eraseKey k c.cache ++ [(k, v)]).length : Int) > c.capacity ∧
      (c.put k v).cache = (eraseKey k c.cache ++ [(k, v)]).drop 1) ∨
    (((eraseKey k c.cache ++ [(k, v)]).length : Int) ≤ c.capacity ∧
      (c.put k v).cache = eraseKey k c.cache ++ [(k, v)]) := by
  unfold LRUCache.put
  by_cases hb : ((eraseKey k c.cache ++ [(k, v)]).length : Int) > c.capacity
  · exact Or.inl ⟨hb, by rw [if_pos hb]⟩
  · exact Or.inr ⟨by omega, by rw [if_neg hb]⟩

theorem put_capacity [DecidableEq κ] (c : LRUCache κ ν) (k : κ) (v : ν) :
    (c.put k v).capacity = c.capacity := by
  unfold LRUCache.put
  by_cases hb : ((eraseKey k c.cache ++ [(k, v)]).length : Int) > c.capacity
  · rw [if_pos hb]
  · rw [if_neg hb]

theorem mem_put [DecidableEq κ] {c : LRUCache κ ν} {k : κ} {v : ν} {p : κ × ν}
    (h : p ∈ (c.put k v).cache) : p = (k, v) ∨ p ∈ c.cache := by
  have key : p ∈ eraseKey k c.cache ++ [(k, v)] → p = (k, v) ∨ p ∈ c.cache := by
    intro h2
    rcases List.mem_append.mp h2 with h3 | h3
    · exact Or.inr (mem_eraseKey h3)
    · simp at h3; exact Or.inl h3
  rcases put_cache_cases c k v with ⟨-, hc⟩ | ⟨-, hc⟩ <;> rw [hc] at h
  · exact key (List.drop_subset 1 _ h)
  · exact key h

theorem get_hit_cache [DecidableEq κ] {c : LRUCache κ ν} {k : κ} {v : ν}
    (hl : lookupKV k c.cache = some v) :
    c.get k = (some v, ⟨c.capacity, eraseKey k c.cache ++ [(k, v)]⟩) := by
  unfold LRUCache.get
  rw [hl]

theorem get_miss [DecidableEq κ] {c : LRUCache κ ν} {k : κ}
    (hl : lookupKV k c.cache = none) : c.get k = (none, c) := by
  unfold LRUCache.get
  rw [hl]

theorem mem_get_snd [DecidableEq κ] {c : LRUCache κ ν} {k : κ} {p : κ × ν}
    (h : p ∈ ((c.get k).2).cache) : p ∈ c.cache := by
  rcases hl : lookupKV k c.cache with _ | v
  · rw [get_miss hl] at h; exact h
  · rw [get_hit_cache hl] at h
    rcases List.mem_append.mp h with h3 | h3
    · exact mem_eraseKey h3
    · simp at h3; subst h3; exact lookupKV_mem hl

theorem lookupKV_filter_eq_none [DecidableEq κ] {key : κ} {q : κ × ν → Bool}
    (l : List (κ × ν)) (h : ∀ v, q (key, v) = false) :
    lookupKV key (l.filter q) = none := by
  induction l with
  | nil => rfl
  | cons p rest ih =>
    obtain ⟨k, w⟩ := p
    by_cases hq : q (k, w)
    · have hk : k ≠ key := by
        intro he; subst he; rw [h w] at hq; exact absurd hq (by simp)
      rw [List.filter_cons_of_pos hq]
      simp only [lookupKV]
      rw [if_neg hk]
      exact ih
    · rw [List.filter_cons_of_neg hq]
      exact ih

/-- C6 — Invalidation completeness: when `update_with_cache` succeeds at
index `i`, every cached key `(L, R)` with `L ≤ i ≤ R` has been removed,
so `get` on it returns `None`. -/
theorem update_invalidates_overlapping_entries {a a' : List Int} {i : Nat}
    {v : Int} {c c' : LRUCache (Nat × Nat) Int}
    (h : update_with_cache a i v c = .ok (a', c'))
    (L R : Nat) (hL : L ≤ i) (hR : i ≤ R) : (c'.get (L, R)).1 = none := by
  unfold update_with_cache at h
  split at h
  · simp only [Except.ok.injEq, Prod.mk.injEq] at h
    obtain ⟨-, hc⟩ := h
    subst hc
    have hnone : lookupKV (L, R) ((c.invalidate
        (fun k => decide (k.1 ≤ i) && decide (i ≤ k.2))).cache) = none := by
      unfold LRUCache.invalidate
      exact lookupKV_filter_eq_none _ (fun v => by simp [hL, hR])
    rw [get_miss hnone]
  · exact absurd h (by simp)

/-- C8 counterexample — the claim says construction with non-positive
capacity must fail; but `LRUCache.__init__` performs no validation:
constructing with capacity `0` succeeds and yields an ordinary cache
object. -/
theorem lru_init_accepts_nonpositive_capacity :
    LRUCache.init Nat Int 0 = ⟨0, []⟩ ∧ LRUCache.init Nat Int (-5) = ⟨-5, []⟩ :=
  ⟨rfl, rfl⟩

/-- C8 amended — construction never fails: any capacity, including zero
or negative, is stored unchecked with an empty dict; a non-positive
capacity merely makes every `put` evict immediately, so the cache holds
no entries after any sequence of calls. -/
theorem nonpositive_capacity_construction_succeeds [DecidableEq κ] (cap : Int)
    (hcap : cap ≤ 0) (ops : List (CacheOp κ ν)) :
    LRUCache.init κ ν cap = ⟨cap, []⟩ ∧
      (ops.foldl applyCacheOp (LRUCache.init κ ν cap)).cache = [] := by
  refine ⟨rfl, ?_⟩
  have key : ∀ (ops : List (CacheOp κ ν)) (c : LRUCache κ ν),
      c.capacity ≤ 0 → c.cache = [] → (ops.foldl applyCacheOp c).cache = [] := by
    intro ops
    induction ops with
    | nil => intro c _ h2; exact h2
    | cons op rest ih =>
      intro c h1 h2
      rcases op with k | ⟨k, v⟩ | f
      · have : applyCacheOp c (.get k) = c := by
          simp [applyCacheOp, LRUCache.get, h2, lookupKV]
        rw [List.foldl_cons, this]
        exact ih c h1 h2
      · have : applyCacheOp c (.put k v) = ⟨c.capacity, []⟩ := by
          simp only [applyCacheOp, LRUCache.put, h2]
          rw [if_pos (by simp [eraseKey]; omega)]
          simp [eraseKey]
        rw [List.foldl_cons, this]
        exact ih _ h1 rfl
      · have : applyCacheOp c (.invalidate f) = ⟨c.capacity, []⟩ := by
          simp [applyCacheOp, LRUCache.invalidate, h2]
        rw [List.foldl_cons, this]
        exact ih _ h1 rfl
  exact key ops _ hcap rfl

/-- C9 counterexample — the claim says an out-of-range range query must
fail before computing anything; but with `array = [1, 2, 3]` and the
out-of-range bounds `L = 0, R = 5`, both `range_sum_no_cache` and
`range_sum_with_cache` silently return `6`, the sum over the truncated
range, instead of failing. -/
theorem range_sum_silently_truncates :
    range_sum_no_cache [1, 2, 3] 0 5 = 6 ∧
      (range_sum_with_cache [1, 2, 3] 0 5 (LRUCache.init _ _ 10)).1 = 6 := by
  constructor <;> rfl

/-- C9 amended — out-of-range behavior as the code has it: a range query
whose upper bound reaches past the end never fails and silently sums the
truncated slice (Python slicing), while a point update with an index at
or past the length raises `IndexError` before mutating the array and
before touching the cache (the error result carries no new state). -/
theorem out_of_range_semantics :
    (∀ (a : List Int) (L R : Nat), a.length ≤ R + 1 →
      range_sum_no_cache a L R = (a.drop L).sum) ∧
    (∀ (a : List Int) (i : Nat) (v : Int) (c : LRUCache (Nat × Nat) Int),
      a.length ≤ i → update_with_cache a i v c = .error ()) := by
  constructor
  · intro a L R h
    unfold range_sum_no_cache pySlice
    rw [List.take_of_length_le h]
  · intro a i v c h
    unfold update_with_cache
    rw [if_neg (by omega)]

/-- Witness for the C9 amended theorem at concrete inputs. -/
theorem out_of_range_semantics_witness :
    range_sum_no_cache [1, 2, 3] 1 7 = (([1, 2, 3] : List Int).drop 1).sum ∧
      update_with_cache [1, 2, 3] 5 7 (LRUCache.init _ _ 10) = .error () :=
  ⟨out_of_range_semantics.1 [1, 2, 3] 1 7 (by decide),
    out_of_range_semantics.2 [1, 2, 3] 5 7 _ (by decide)⟩

/-- Witness for the C8 amended theorem at concrete inputs. -/
theorem nonpositive_capacity_construction_succeeds_witness :
    LRUCache.init Nat Int (-3) = ⟨-3, []⟩ ∧
      ([CacheOp.put 1 (2 : Int), CacheOp.get 1].foldl applyCacheOp
        (LRUCache.init Nat Int (-3))).cache = [] :=
  nonpositive_capacity_construction_succeeds (-3) (by decide)
    [CacheOp.put 1 (2 : Int), CacheOp.get 1]

theorem get_capacity [DecidableEq κ] (c : LRUCache κ ν) (k : κ) :
    ((c.get k).2).capacity = c.capacity := by
  rcases hl : lookupKV k c.cache with _ | v
  · rw [get_miss hl]
  · rw [get_hit_cache hl]

theorem get_cache_length_le [DecidableEq κ] (c : LRUCache κ ν) (k : κ) :
    ((c.get k).2).cache.length ≤ c.cache.length := by
  rcases hl : lookupKV k c.cache with _ | v
  · rw [get_miss hl]
  · rw [get_hit_cache hl]
    simp only [List.length_append, List.length_cons, List.length_nil]
    have := length_eraseKey_lt hl
    omega

theorem invalidate_capacity (c : LRUCache κ ν) (f : κ → Bool) :
    (c.invalidate f).capacity = c.capacity := rfl

theorem applyCacheOp_capacity [DecidableEq κ] (c : LRUCache κ ν)
    (op : CacheOp κ ν) : (applyCacheOp c op).capacity = c.capacity := by
  rcases op with k | ⟨k, v⟩ | f
  · exact get_capacity c k
  · exact put_capacity c k v
  · rfl

theorem applyCacheOp_length_le [DecidableEq κ] (c : LRUCache κ ν)
    (op : CacheOp κ ν) (h : (c.cache.length : Int) ≤ c.capacity) :
    ((applyCacheOp c op).cache.length : Int) ≤ c.capacity := by
  rcases op with k | ⟨k, v⟩ | f
  · have := get_cache_length_le c k
    simp only [applyCacheOp]
    omega
  · have he := length_eraseKey_le k c.cache
    simp only [applyCacheOp]
    rcases put_cache_cases c k v with ⟨hb, hc⟩ | ⟨hb, hc⟩ <;> rw [hc]
    · simp only [List.length_drop, List.length_append, List.length_cons,
        List.length_nil]
      omega
    · omega
  · have : ((c.invalidate f).cache).length ≤ c.cache.length :=
      List.length_filter_le _ _
    simp only [applyCacheOp]
    omega

theorem foldl_cacheOps_length_le [DecidableEq κ] :
    ∀ (ops : List (CacheOp κ ν)) (c : LRUCache κ ν),
      (c.cache.length : Int) ≤ c.capacity →
      ((ops.foldl applyCacheOp c).cache.length : Int) ≤ c.capacity := by
  intro ops
  induction ops with
  | nil => intro c h; exact h
  | cons op rest ih =>
    intro c h
    rw [List.foldl_cons]
    have h1 := applyCacheOp_length_le c op h
    have h2 := applyCacheOp_capacity c op
    have := ih (applyCacheOp c op) (by rw [h2]; exact h1)
    rw [h2] at this
    exact this

/-- C2 — Capacity invariant: from a cache constructed with positive
capacity, after any sequence of `get`/`put`/`invalidate` calls the
number of stored entries is at most the capacity. Quantifying over all
call sequences covers the state after every intermediate call. -/
theorem cache_capacity_invariant [DecidableEq κ] (cap : Int) (hcap : 0 < cap)
    (ops : List (CacheOp κ ν)) :
    ((ops.foldl applyCacheOp (LRUCache.init κ ν cap)).cache.length : Int) ≤ cap := by
  have h0 : (((LRUCache.init κ ν cap).cache.length : Int)) ≤
      (LRUCache.init κ ν cap).capacity := by
    simp only [LRUCache.init, List.length_nil, Nat.cast_zero]
    omega
  exact foldl_cacheOps_length_le ops _ h0

/-- Witness for C2 at a concrete capacity and call sequence. -/
theorem cache_capacity_invariant_witness :
    (0 : Int) < 1 ∧
      ((([CacheOp.put 1 (10 : Int), CacheOp.put 2 20, CacheOp.get 1,
          CacheOp.put 3 30].foldl applyCacheOp
        (LRUCache.init Nat Int 1)).cache.length : Int)) ≤ 1 :=
  ⟨by decide, cache_capacity_invariant 1 (by decide) _⟩

theorem foldl_put_fresh [DecidableEq κ] (vals : κ → ν) :
    ∀ (ks : List κ) (c : LRUCache κ ν),
      (∀ k ∈ ks, ∀ p ∈ c.cache, p.1 ≠ k) → ks.Nodup →
      ((c.cache.length : Int) + ks.length ≤ c.capacity) →
      ks.foldl (fun c k => c.put k (vals k)) c =
        ⟨c.capacity, c.cache ++ ks.map fun k => (k, vals k)⟩ := by
  intro ks
  induction ks with
  | nil =>
    intro c _ _ _
    simp
  | cons k rest ih =>
    intro c hfresh hnd hlen
    have herase : eraseKey k c.cache = c.cache :=
      eraseKey_of_forall_ne fun p hp => hfresh k (List.mem_cons_self _ _) p hp
    have hstep : c.put k (vals k) = ⟨c.capacity, c.cache ++ [(k, vals k)]⟩ := by
      unfold LRUCache.put
      rw [herase, if_neg (by
        simp only [List.length_append, List.length_cons, List.length_nil,
          not_lt]
        push_cast
        simp only [List.length_cons] at hlen
        omega)]
    rw [List.foldl_cons, hstep]
    rw [ih ⟨c.capacity, c.cache ++ [(k, vals k)]⟩
      (by
        intro k' hk' p hp
        rcases List.mem_append.mp hp with hp1 | hp1
        · exact hfresh k' (List.mem_cons_of_mem _ hk') p hp1
        · simp at hp1
          subst hp1
          intro he
          simp only at he
          subst he
          exact (List.nodup_cons.mp hnd).1 hk'
      )
      (List.nodup_cons.mp hnd).2
      (by
        simp only [List.length_append, List.length_cons, List.length_nil]
        simp only [List.length_cons] at hlen
        push_cast
        push_cast at hlen
        omega)]
    simp

/-- C7 — LRU eviction order: with capacity `C = rest.length + 1 > 0`,
putting the `C + 1` distinct keys `k₁ :: rest ++ [klast]` in order with
no intervening `get` evicts exactly `k₁` on the last put: `get k₁`
misses while every other key still returns its value. -/
theorem lru_evicts_least_recently_used_first [DecidableEq κ] (k₁ klast : κ)
    (rest : List κ) (vals : κ → ν)
    (hnd : (k₁ :: (rest ++ [klast])).Nodup) :
    ((((k₁ :: (rest ++ [klast])).foldl (fun c k => c.put k (vals k))
        (LRUCache.init κ ν ((rest.length : Int) + 1))).get k₁).1 = none) ∧
    (∀ k ∈ rest ++ [klast],
      (((k₁ :: (rest ++ [klast])).foldl (fun c k => c.put k (vals k))
        (LRUCache.init κ ν ((rest.length : Int) + 1))).get k).1
        = some (vals k)) := by
  have hk₁ : k₁ ∉ rest ++ [klast] := (List.nodup_cons.mp hnd).1
  have hnd2 : (rest ++ [klast]).Nodup := (List.nodup_cons.mp hnd).2
  have hkl : klast ∉ rest := by
    intro hin
    have := List.disjoint_of_nodup_append hnd2
    exact this hin (List.mem_singleton.mpr rfl)
  have hsplit : k₁ :: (rest ++ [klast]) = (k₁ :: rest) ++ [klast] := by simp
  have hnd3 : (k₁ :: rest).Nodup := by
    rw [List.nodup_cons]
    constructor
    · intro hin; exact hk₁ (List.mem_append.mpr (Or.inl hin))
    · exact (List.nodup_append.mp hnd2).1
  have hmid : (k₁ :: rest).foldl (fun c k => c.put k (vals k))
      (LRUCache.init κ ν ((rest.length : Int) + 1)) =
      ⟨(rest.length : Int) + 1, (k₁ :: rest).map fun k => (k, vals k)⟩ := by
    rw [foldl_put_fresh vals (k₁ :: rest) _ (by intro k _ p hp; simp [LRUCache.init] at hp)
      hnd3 (by simp [LRUCache.init])]
    simp [LRUCache.init]
  have hfresh_last : eraseKey klast ((k₁ :: rest).map fun k => (k, vals k)) =
      (k₁ :: rest).map fun k => (k, vals k) := by
    apply eraseKey_of_forall_ne
    intro p hp
    simp only [List.mem_map, List.mem_cons] at hp
    obtain ⟨k', hk', hpk⟩ := hp
    subst hpk
    simp only
    rcases hk' with h1 | h1
    · subst h1
      intro he
      exact hk₁ (he ▸ List.mem_append.mpr (Or.inr (List.mem_singleton.mpr rfl)))
    · intro he
      exact hkl (he ▸ h1)
  have hfinal : (k₁ :: (rest ++ [klast])).foldl (fun c k => c.put k (vals k))
      (LRUCache.init κ ν ((rest.length : Int) + 1)) =
      ⟨(rest.length : Int) + 1, (rest ++ [klast]).map fun k => (k, vals k)⟩ := by
    rw [hsplit, List.foldl_append, hmid]
    simp only [List.foldl_cons, List.foldl_nil]
    unfold LRUCache.put
    rw [hfresh_last, if_pos (by
      simp only [List.length_append, List.length_map, List.length_cons,
        List.length_nil]
      push_cast
      omega)]
    simp
  rw [hfinal]
  constructor
  · have hnone : lookupKV k₁ ((rest ++ [klast]).map fun k => (k, vals k)) = none := by
      apply lookupKV_eq_none
      intro p hp
      simp only [List.mem_map] at hp
      obtain ⟨k', hk', hpk⟩ := hp
      subst hpk
      simp only
      intro he
      exact hk₁ (he ▸ hk')
    rw [get_miss hnone]
  · intro k hk
    have hsome : lookupKV k ((rest ++ [klast]).map fun k => (k, vals k)) =
        some (vals k) := lookupKV_map_self hk
    rw [get_hit_cache hsome]

/-- Witness for C7: capacity 2, keys 1, 2, 3 inserted in order; key 1 is
evicted, keys 2 and 3 remain. -/
theorem lru_evicts_least_recently_used_first_witness :
    ((((1 : Nat) :: ([2] ++ [3])).foldl
        (fun c k => c.put k ((k : Int) * 10))
        (LRUCache.init Nat Int ((([2] : List Nat).length : Int) + 1))).get 1).1
      = none ∧
    (∀ k ∈ ([2] : List Nat) ++ [3],
      ((((1 : Nat) :: ([2] ++ [3])).foldl
        (fun c k => c.put k ((k : Int) * 10))
        (LRUCache.init Nat Int ((([2] : List Nat).length : Int) + 1))).get k).1
      = some ((k : Int) * 10)) :=
  lru_evicts_least_recently_used_first (κ := Nat) (ν := Int) 1 3 [2]
    (fun k => (k : Int) * 10) (by decide)

/-- Witness for C6 at concrete inputs. -/
theorem update_invalidates_overlapping_entries_witness :
    (LRUCache.get ⟨10, []⟩ (0, 2)).1 = (none : Option Int) :=
  @update_invalidates_overlapping_entries [1, 2, 3] [1, 9, 3] 1 9
    ⟨10, [((0, 2), 6)]⟩ ⟨10, []⟩ rfl 0 2 (by decide) (by decide)

theorem pySlice_set_outside (a : List Int) (i : Nat) (v : Int) (L h : Nat)
    (hout : i < L ∨ h ≤ i) : pySlice (a.set i v) L h = pySlice a L h := by
  apply List.ext_getElem
  · simp [pySlice]
  · intro j h1 h2
    simp only [pySlice, List.length_drop, List.length_take, List.length_set]
      at h1 h2
    simp only [pySlice]
    rw [List.getElem_drop, List.getElem_drop, List.getElem_take,
      List.getElem_take]
    exact List.getElem_set_ne (by omega) _

theorem range_sum_no_cache_set_outside (a : List Int) (i L R : Nat) (v : Int)
    (hout : ¬(L ≤ i ∧ i ≤ R)) :
    range_sum_no_cache (a.set i v) L R = range_sum_no_cache a L R := by
  unfold range_sum_no_cache
  rw [pySlice_set_outside a i v L (R + 1) (by omega)]

theorem range_sum_with_cache_hit {a : List Int} {L R : Nat} {v : Int}
    {c : LRUCache (Nat × Nat) Int} (hl : lookupKV (L, R) c.cache = some v) :
    range_sum_with_cache a L R c =
      (v, ⟨c.capacity, eraseKey (L, R) c.cache ++ [((L, R), v)]⟩) := by
  unfold range_sum_with_cache
  rw [get_hit_cache hl]

theorem range_sum_with_cache_miss {a : List Int} {L R : Nat}
    {c : LRUCache (Nat × Nat) Int} (hl : lookupKV (L, R) c.cache = none) :
    range_sum_with_cache a L R c =
      (range_sum_no_cache a L R, c.put (L, R) (range_sum_no_cache a L R)) := by
  unfold range_sum_with_cache
  rw [get_miss hl]
  rfl

/-- The cache is coherent for the current array: every stored entry is
the uncached sum of its range. -/
def CoherentCache (a : List Int) (c : LRUCache (Nat × Nat) Int) : Prop :=
  ∀ p ∈ c.cache, p.2 = range_sum_no_cache a p.1.1 p.1.2

theorem runWithCache_eq_runNoCache :
    ∀ (ops : List Op) (a : List Int) (c : LRUCache (Nat × Nat) Int),
      CoherentCache a c → runWithCache a c ops = runNoCache a ops := by
  intro ops
  induction ops with
  | nil => intro a c _; rfl
  | cons op rest ih =>
    intro a c hcoh
    rcases op with ⟨L, R⟩ | ⟨i, v⟩
    · rcases hl : lookupKV (L, R) c.cache with _ | w
      · have hcoh2 : CoherentCache a (c.put (L, R) (range_sum_no_cache a L R)) := by
          intro p hp
          rcases mem_put hp with hp1 | hp1
          · rw [hp1]
          · exact hcoh p hp1
        rw [runWithCache, runNoCache]
        rw [range_sum_with_cache_miss hl]
        dsimp only
        rw [ih a _ hcoh2]
      · have hw : w = range_sum_no_cache a L R := hcoh _ (lookupKV_mem hl)
        have hcoh2 : CoherentCache a
            ⟨c.capacity, eraseKey (L, R) c.cache ++ [((L, R), w)]⟩ := by
          intro p hp
          rcases List.mem_append.mp hp with hp1 | hp1
          · exact hcoh p (mem_eraseKey hp1)
          · simp only [List.mem_singleton] at hp1
            rw [hp1]; exact hw
        rw [runWithCache, runNoCache]
        rw [range_sum_with_cache_hit hl]
        dsimp only
        rw [ih a _ hcoh2, hw]
    · rw [runWithCache, runNoCache]
      unfold update_with_cache update_no_cache
      by_cases hi : i < a.length
      · rw [if_pos hi, if_pos hi]
        dsimp only
        apply ih
        intro p hp
        have hmem := List.mem_filter.mp hp
        have hcond : ¬((p.1.1 ≤ i) ∧ (i ≤ p.1.2)) := by
          have h2 := hmem.2
          simp at h2
          intro hand
          rcases h2 with h3 | h3 <;> omega
        rw [range_sum_no_cache_set_outside a i p.1.1 p.1.2 v hcond]
        exact hcoh p hmem.1
      · rw [if_neg hi, if_neg hi]

/-- C1 — Cache transparency: for every backing array and every sequence
of in-range range queries and point updates, running the sequence with
`range_sum_with_cache`/`update_with_cache` over a freshly constructed
`LRUCache` (any capacity) yields exactly the same query results as
running it with `range_sum_no_cache`/`update_no_cache`. (The proof goes
through the invariant that every cached entry equals the uncached sum of
its range; the in-range hypothesis mirrors the claim's wording.) -/
theorem cache_transparency (a : List Int) (ops : List Op) (cap : Int)
    (hops : ∀ op ∈ ops, inRange a.length op = true) :
    runWithCache a (LRUCache.init (Nat × Nat) Int cap) ops = runNoCache a ops :=
  runWithCache_eq_runNoCache ops a _ (by intro p hp; simp [LRUCache.init] at hp)

/-- Witness for C1 at a concrete array and request sequence, matching
the spec scenario `[1,2,3,4,5]`, `rangeSum(1,3)`, `update(2,10)`,
`rangeSum(1,3)`. -/
theorem cache_transparency_witness :
    (∀ op ∈ [Op.rangeQuery 1 3, Op.pointUpdate 2 10, Op.rangeQuery 1 3,
        Op.rangeQuery 0 4],
      inRange ([1, 2, 3, 4, 5] : List Int).length op = true) ∧
    runWithCache [1, 2, 3, 4, 5] (LRUCache.init (Nat × Nat) Int 2)
        [Op.rangeQuery 1 3, Op.pointUpdate 2 10, Op.rangeQuery 1 3,
          Op.rangeQuery 0 4] =
      runNoCache [1, 2, 3, 4, 5]
        [Op.rangeQuery 1 3, Op.pointUpdate 2 10, Op.rangeQuery 1 3,
          Op.rangeQuery 0 4] :=
  ⟨by decide, cache_transparency [1, 2, 3, 4, 5] _ 2 (by decide)⟩

end Task1

namespace Task2

@[simp] theorem inorder_nil : inorder (.nil : SplayTree β) = [] := rfl

@[simp] theorem inorder_node (k : Nat) (v : β) (l r : SplayTree β) :
    inorder (.node k v l r) = inorder l ++ (k, v) :: inorder r := rfl

@[simp] theorem keys_nil : keys (.nil : SplayTree β) = [] := rfl

@[simp] theorem keys_node (k : Nat) (v : β) (l r : SplayTree β) :
    keys (.node k v l r) = keys l ++ k :: keys r := by
  simp [keys]

@[simp] theorem inorder_right_rotate (t : SplayTree β) :
    inorder t.right_rotate = inorder t := by
  rcases t with _ | ⟨k, v, l, r⟩
  · rfl
  · rcases l with _ | ⟨lk, lv, ll, lr⟩
    · rfl
    · simp [SplayTree.right_rotate]

@[simp] theorem inorder_left_rotate (t : SplayTree β) :
    inorder t.left_rotate = inorder t := by
  rcases t with _ | ⟨k, v, l, r⟩
  · rfl
  · rcases r with _ | ⟨rk, rv, rl, rr⟩
    · rfl
    · simp [SplayTree.left_rotate]

theorem inorder_splay_node_left (k : Nat) (v : β) (lk : Nat) (lv : β)
    (ll lr r : SplayTree β) (key : Nat) (h1 : ¬ key = k) (h2 : key < k)
    (ihll : inorder (splay ll key) = inorder ll)
    (ihlr : inorder (splay lr key) = inorder lr) :
    inorder (splay (.node k v (.node lk lv ll lr) r) key) =
      inorder (.node k v (.node lk lv ll lr) r) := by
  rw [splay.eq_def]
  dsimp only
  rw [if_neg h1, if_pos h2]
  by_cases h3 : key < lk
  · rw [if_pos h3]
    rcases hsll : splay ll key with _ | ⟨sk, sv, sl, sr⟩ <;>
      simp [SplayTree.right_rotate, ← ihll, hsll]
  · rw [if_neg h3]
    by_cases h4 : lk < key
    · rw [if_pos h4]
      rcases hslr : splay lr key with _ | ⟨sk, sv, sl, sr⟩ <;>
        simp [SplayTree.right_rotate, SplayTree.left_rotate, ← ihlr, hslr]
    · rw [if_neg h4]
      simp [SplayTree.right_rotate]

theorem inorder_splay_node_right (k : Nat) (v : β) (rk : Nat) (rv : β)
    (l rl rr : SplayTree β) (key : Nat) (h1 : ¬ key = k) (h2 : ¬ key < k)
    (ihrl : inorder (splay rl key) = inorder rl)
    (ihrr : inorder (splay rr key) = inorder rr) :
    inorder (splay (.node k v l (.node rk rv rl rr)) key) =
      inorder (.node k v l (.node rk rv rl rr)) := by
  rw [splay.eq_def]
  dsimp only
  rw [if_neg h1, if_neg h2]
  by_cases h3 : rk < key
  · rw [if_pos h3]
    rcases hsrr : splay rr key with _ | ⟨sk, sv, sl, sr⟩ <;>
      simp [SplayTree.right_rotate, SplayTree.left_rotate, ← ihrr, hsrr]
  · rw [if_neg h3]
    by_cases h4 : key < rk
    · rw [if_pos h4]
      rcases hsrl : splay rl key with _ | ⟨sk, sv, sl, sr⟩ <;>
        simp [SplayTree.right_rotate, SplayTree.left_rotate, ← ihrl, hsrl]
    · rw [if_neg h4]
      simp [SplayTree.left_rotate]

theorem inorder_splay (t : SplayTree β) (key : Nat) :
    inorder (splay t key) = inorder t := by
  refine splay.induct
    (motive := fun t key => inorder (splay t key) = inorder t)
    ?_ ?_ ?_ ?_ ?_ ?_ ?_ ?_ t key
  · intro x; rfl
  · intro v l r key
    rw [splay.eq_def]
    dsimp only
    rw [if_pos rfl]
  · intro k v r key h1 h2
    rw [splay.eq_def]
    dsimp only
    rw [if_neg h1, if_pos h2]
  · intro k v r key h1 h2 lk lv ll lr root k2 v2 r2 hroot ihll ihlr
    exact inorder_splay_node_left k v lk lv ll lr r key h1 h2 ihll ihlr
  · intro k v r key h1 h2 lk lv ll lr root hroot ihll ihlr
    exact inorder_splay_node_left k v lk lv ll lr r key h1 h2 ihll ihlr
  · intro k v l key h1 h2
    rw [splay.eq_def]
    dsimp only
    rw [if_neg h1, if_neg h2]
  · intro k v l key h1 h2 rk rv rl rr root k2 v2 l2 hroot ihrr ihrl
    exact inorder_splay_node_right k v rk rv l rl rr key h1 h2 ihrl ihrr
  · intro k v l key h1 h2 rk rv rl rr root hroot ihrr ihrl
    exact inorder_splay_node_right k v rk rv l rl rr key h1 h2 ihrl ihrr

theorem keys_splay (t : SplayTree β) (key : Nat) :
    keys (splay t key) = keys t := by
  unfold keys
  rw [inorder_splay]

theorem isBST_iff_sorted (t : SplayTree β) :
    IsBST t ↔ List.Sorted (· < ·) (keys t) := by
  induction t with
  | nil => simp [IsBST]
  | node k v l r ihl ihr =>
    simp only [IsBST, keys_node]
    constructor
    · rintro ⟨hl, hr, bl, br⟩
      exact List.pairwise_append.mpr ⟨ihl.mp bl,
        List.pairwise_cons.mpr ⟨hr, ihr.mp br⟩,
        fun x hx y hy => by
          rcases List.mem_cons.mp hy with h | h
          · subst h
            exact hl x hx
          · exact lt_trans (hl x hx) (hr y h)⟩
    · intro hs
      obtain ⟨hsl, h23, h4⟩ := List.pairwise_append.mp hs
      obtain ⟨h2, h3⟩ := List.pairwise_cons.mp h23
      exact ⟨fun x hx => h4 x hx k (List.mem_cons_self _ _), h2,
        ihl.mpr hsl, ihr.mpr h3⟩

theorem isBST_splay {t : SplayTree β} (key : Nat) (h : IsBST t) :
    IsBST (splay t key) := by
  rw [isBST_iff_sorted] at h ⊢
  rw [keys_splay]
  exact h

theorem splay_spec_left (k : Nat) (v : β) (lk : Nat) (lv : β)
    (ll lr r : SplayTree β) (key : Nat) (h1 : ¬ key = k) (h2 : key < k)
    (ihll : IsBST ll →
      ((key ∈ keys ll → ∃ w a b, splay ll key = .node key w a b) ∧
       (∀ k2 v2 l2 r2, splay ll key = .node k2 v2 l2 r2 →
         (key ≤ k2 → ∀ x ∈ keys l2, x < key) ∧
         (k2 ≤ key → ∀ x ∈ keys r2, key < x))))
    (ihlr : IsBST lr →
      ((key ∈ keys lr → ∃ w a b, splay lr key = .node key w a b) ∧
       (∀ k2 v2 l2 r2, splay lr key = .node k2 v2 l2 r2 →
         (key ≤ k2 → ∀ x ∈ keys l2, x < key) ∧
         (k2 ≤ key → ∀ x ∈ keys r2, key < x))))
    (hb : IsBST (.node k v (.node lk lv ll lr) r)) :
    (key ∈ keys (.node k v (.node lk lv ll lr) r) →
      ∃ w a b, splay (.node k v (.node lk lv ll lr) r) key = .node key w a b) ∧
    (∀ k2 v2 l2 r2,
      splay (.node k v (.node lk lv ll lr) r) key = .node k2 v2 l2 r2 →
      (key ≤ k2 → ∀ x ∈ keys l2, x < key) ∧
      (k2 ≤ key → ∀ x ∈ keys r2, key < x)) := by
  have hb' := hb
  simp only [IsBST] at hb'
  obtain ⟨hl_k, hr_k, hbl, hbr⟩ := hb'
  have hbl' := hbl
  simp only [IsBST] at hbl'
  obtain ⟨hll_lk, hlr_lk, bll, blr⟩ := hbl'
  have hlk_k : lk < k := hl_k lk (by simp)
  by_cases h3 : key < lk
  · rcases hsll : splay ll key with _ | ⟨sk, sv2, sl, sr⟩
    · have hkll : keys ll = [] := by
        have h5 := keys_splay ll key
        rw [hsll] at h5
        simpa using h5.symm
      have hs : splay (.node k v (.node lk lv ll lr) r) key =
          .node lk lv .nil (.node k v lr r) := by
        rw [splay.eq_def]
        dsimp only
        rw [if_neg h1, if_pos h2, if_pos h3, hsll]
        rfl
      refine ⟨?_, ?_⟩
      · intro hmem
        exfalso
        simp only [keys_node, List.mem_append, List.mem_cons] at hmem
        rcases hmem with (hm | hm | hm) | hm | hm
        · rw [hkll] at hm
          simp at hm
        · omega
        · have := hlr_lk key hm
          omega
        · omega
        · have := hr_k key hm
          omega
      · intro k2 v2 l2 r2 heq
        rw [hs] at heq
        injection heq with e1 e2 e3 e4
        subst e1
        subst e3
        subst e4
        refine ⟨?_, ?_⟩
        · intro _ x hx
          simp at hx
        · intro h5
          exact absurd h5 (by omega)
    · have hsplit := (ihll bll).2 sk sv2 sl sr hsll
      have hkeysll : keys sl ++ sk :: keys sr = keys ll := by
        have h5 := keys_splay ll key
        rw [hsll] at h5
        simpa using h5
      have hs : splay (.node k v (.node lk lv ll lr) r) key =
          .node sk sv2 sl (.node lk lv sr (.node k v lr r)) := by
        rw [splay.eq_def]
        dsimp only
        rw [if_neg h1, if_pos h2, if_pos h3, hsll]
        rfl
      refine ⟨?_, ?_⟩
      · intro hmem
        have hkey_ll : key ∈ keys ll := by
          simp only [keys_node, List.mem_append, List.mem_cons] at hmem
          rcases hmem with (hm | hm | hm) | hm | hm
          · exact hm
          · exact absurd hm (by omega)
          · exact absurd (hlr_lk key hm) (by omega)
          · exact absurd hm h1
          · exact absurd (hr_k key hm) (by omega)
        obtain ⟨w, a, b, hw⟩ := (ihll bll).1 hkey_ll
        have hkeq : key = sk := by
          rw [hw] at hsll
          injection hsll with e1 e2 e3 e4
        subst hkeq
        exact ⟨sv2, sl, .node lk lv sr (.node k v lr r), hs⟩
      · intro k2 v2 l2 r2 heq
        rw [hs] at heq
        injection heq with e1 e2 e3 e4
        subst e1
        subst e3
        subst e4
        refine ⟨?_, ?_⟩
        · intro h5 x hx
          exact hsplit.1 h5 x hx
        · intro h5 x hx
          simp only [keys_node, List.mem_append, List.mem_cons] at hx
          rcases hx with hx | hx | hx | hx | hx
          · exact hsplit.2 h5 x hx
          · omega
          · have := hlr_lk x hx
            omega
          · omega
          · have := hr_k x hx
            omega
  · by_cases h4 : lk < key
    · rcases hslr : splay lr key with _ | ⟨sk, sv2, sl, sr⟩
      · have hklr : keys lr = [] := by
          have h5 := keys_splay lr key
          rw [hslr] at h5
          simpa using h5.symm
        have hs : splay (.node k v (.node lk lv ll lr) r) key =
            .node lk lv ll (.node k v .nil r) := by
          rw [splay.eq_def]
          dsimp only
          rw [if_neg h1, if_pos h2, if_neg h3, if_pos h4, hslr]
          rfl
        refine ⟨?_, ?_⟩
        · intro hmem
          exfalso
          simp only [keys_node, List.mem_append, List.mem_cons] at hmem
          rcases hmem with (hm | hm | hm) | hm | hm
          · have := hll_lk key hm
            omega
          · omega
          · rw [hklr] at hm
            simp at hm
          · omega
          · have := hr_k key hm
            omega
        · intro k2 v2 l2 r2 heq
          rw [hs] at heq
          injection heq with e1 e2 e3 e4
          subst e1
          subst e3
          subst e4
          refine ⟨?_, ?_⟩
          · intro h5
            exact absurd h5 (by omega)
          · intro h5 x hx
            simp only [keys_node, keys_nil, List.nil_append, List.mem_cons]
              at hx
            rcases hx with hx | hx
            · omega
            · have := hr_k x hx
              omega
      · have hsplit := (ihlr blr).2 sk sv2 sl sr hslr
        have hkeyslr : keys sl ++ sk :: keys sr = keys lr := by
          have h5 := keys_splay lr key
          rw [hslr] at h5
          simpa using h5
        have hs : splay (.node k v (.node lk lv ll lr) r) key =
            .node sk sv2 (.node lk lv ll sl) (.node k v sr r) := by
          rw [splay.eq_def]
          dsimp only
          rw [if_neg h1, if_pos h2, if_neg h3, if_pos h4, hslr]
          rfl
        refine ⟨?_, ?_⟩
        · intro hmem
          have hkey_lr : key ∈ keys lr := by
            simp only [keys_node, List.mem_append, List.mem_cons] at hmem
            rcases hmem with (hm | hm | hm) | hm | hm
            · exact absurd (hll_lk key hm) (by omega)
            · exact absurd hm (by omega)
            · exact hm
            · exact absurd hm h1
            · exact absurd (hr_k key hm) (by omega)
          obtain ⟨w, a, b, hw⟩ := (ihlr blr).1 hkey_lr
          have hkeq : key = sk := by
            rw [hw] at hslr
            injection hslr with e1 e2 e3 e4
          subst hkeq
          exact ⟨sv2, .node lk lv ll sl, .node k v sr r, hs⟩
        · intro k2 v2 l2 r2 heq
          rw [hs] at heq
          injection heq with e1 e2 e3 e4
          subst e1
          subst e3
          subst e4
          refine ⟨?_, ?_⟩
          · intro h5 x hx
            simp only [keys_node, List.mem_append, List.mem_cons] at hx
            rcases hx with hx | hx | hx
            · have := hll_lk x hx
              omega
            · omega
            · exact hsplit.1 h5 x hx
          · intro h5 x hx
            simp only [keys_node, List.mem_append, List.mem_cons] at hx
            rcases hx with hx | hx | hx
            · exact hsplit.2 h5 x hx
            · omega
            · have := hr_k x hx
              omega
    · have hkeq : key = lk := by omega
      have hs : splay (.node k v (.node lk lv ll lr) r) key =
          .node lk lv ll (.node k v lr r) := by
        rw [splay.eq_def]
        dsimp only
        rw [if_neg h1, if_pos h2, if_neg h3, if_neg h4]
        rfl
      refine ⟨?_, ?_⟩
      · intro _
        subst hkeq
        exact ⟨lv, ll, .node k v lr r, hs⟩
      · intro k2 v2 l2 r2 heq
        rw [hs] at heq
        injection heq with e1 e2 e3 e4
        subst e1
        subst e3
        subst e4
        refine ⟨?_, ?_⟩
        · intro _ x hx
          have := hll_lk x hx
          omega
        · intro _ x hx
          simp only [keys_node, List.mem_append, List.mem_cons] at hx
          rcases hx with hx | hx | hx
          · have := hlr_lk x hx
            omega
          · omega
          · have := hr_k x hx
            omega

theorem splay_spec_right (k : Nat) (v : β) (rk : Nat) (rv : β)
    (l rl rr : SplayTree β) (key : Nat) (h1 : ¬ key = k) (h2 : ¬ key < k)
    (ihrl : IsBST rl →
      ((key ∈ keys rl → ∃ w a b, splay rl key = .node key w a b) ∧
       (∀ k2 v2 l2 r2, splay rl key = .node k2 v2 l2 r2 →
         (key ≤ k2 → ∀ x ∈ keys l2, x < key) ∧
         (k2 ≤ key → ∀ x ∈ keys r2, key < x))))
    (ihrr : IsBST rr →
      ((key ∈ keys rr → ∃ w a b, splay rr key = .node key w a b) ∧
       (∀ k2 v2 l2 r2, splay rr key = .node k2 v2 l2 r2 →
         (key ≤ k2 → ∀ x ∈ keys l2, x < key) ∧
         (k2 ≤ key → ∀ x ∈ keys r2, key < x))))
    (hb : IsBST (.node k v l (.node rk rv rl rr))) :
    (key ∈ keys (.node k v l (.node rk rv rl rr)) →
      ∃ w a b, splay (.node k v l (.node rk rv rl rr)) key = .node key w a b) ∧
    (∀ k2 v2 l2 r2,
      splay (.node k v l (.node rk rv rl rr)) key = .node k2 v2 l2 r2 →
      (key ≤ k2 → ∀ x ∈ keys l2, x < key) ∧
      (k2 ≤ key → ∀ x ∈ keys r2, key < x)) := by
  have hb' := hb
  simp only [IsBST] at hb'
  obtain ⟨hl_k, hr_k, hbl, hbr⟩ := hb'
  have hbr' := hbr
  simp only [IsBST] at hbr'
  obtain ⟨hrl_rk, hrr_rk, brl, brr⟩ := hbr'
  have hk_rk : k < rk := hr_k rk (by simp)
  have hk_key : k < key := by omega
  by_cases h3 : rk < key
  · rcases hsrr : splay rr key with _ | ⟨sk, sv2, sl, sr⟩
    · have hkrr : keys rr = [] := by
        have h5 := keys_splay rr key
        rw [hsrr] at h5
        simpa using h5.symm
      have hs : splay (.node k v l (.node rk rv rl rr)) key =
          .node rk rv (.node k v l rl) .nil := by
        rw [splay.eq_def]
        dsimp only
        rw [if_neg h1, if_neg h2, if_pos h3, hsrr]
        rfl
      refine ⟨?_, ?_⟩
      · intro hmem
        exfalso
        simp only [keys_node, List.mem_append, List.mem_cons] at hmem
        rcases hmem with hm | hm | hm | hm | hm
        · have := hl_k key hm
          omega
        · omega
        · have := hrl_rk key hm
          omega
        · omega
        · rw [hkrr] at hm
          simp at hm
      · intro k2 v2 l2 r2 heq
        rw [hs] at heq
        injection heq with e1 e2 e3 e4
        subst e1
        subst e3
        subst e4
        refine ⟨?_, ?_⟩
        · intro h5
          exact absurd h5 (by omega)
        · intro _ x hx
          simp at hx
    · have hsplit := (ihrr brr).2 sk sv2 sl sr hsrr
      have hs : splay (.node k v l (.node rk rv rl rr)) key =
          .node sk sv2 (.node rk rv (.node k v l rl) sl) sr := by
        rw [splay.eq_def]
        dsimp only
        rw [if_neg h1, if_neg h2, if_pos h3, hsrr]
        rfl
      refine ⟨?_, ?_⟩
      · intro hmem
        have hkey_rr : key ∈ keys rr := by
          simp only [keys_node, List.mem_append, List.mem_cons] at hmem
          rcases hmem with hm | hm | hm | hm | hm
          · exact absurd (hl_k key hm) (by omega)
          · exact absurd hm h1
          · exact absurd (hrl_rk key hm) (by omega)
          · exact absurd hm (by omega)
          · exact hm
        obtain ⟨w, a, b, hw⟩ := (ihrr brr).1 hkey_rr
        have hkeq : key = sk := by
          rw [hw] at hsrr
          injection hsrr with e1 e2 e3 e4
        subst hkeq
        exact ⟨sv2, .node rk rv (.node k v l rl) sl, sr, hs⟩
      · intro k2 v2 l2 r2 heq
        rw [hs] at heq
        injection heq with e1 e2 e3 e4
        subst e1
        subst e3
        subst e4
        refine ⟨?_, ?_⟩
        · intro h5 x hx
          simp only [keys_node, List.mem_append, List.mem_cons] at hx
          rcases hx with (hx | hx | hx) | hx | hx
          · have := hl_k x hx
            omega
          · omega
          · have := hrl_rk x hx
            omega
          · omega
          · exact hsplit.1 h5 x hx
        · intro h5 x hx
          exact hsplit.2 h5 x hx
  · by_cases h4 : key < rk
    · rcases hsrl : splay rl key with _ | ⟨sk, sv2, sl, sr⟩
      · have hkrl : keys rl = [] := by
          have h5 := keys_splay rl key
          rw [hsrl] at h5
          simpa using h5.symm
        have hs : splay (.node k v l (.node rk rv rl rr)) key =
            .node rk rv (.node k v l .nil) rr := by
          rw [splay.eq_def]
          dsimp only
          rw [if_neg h1, if_neg h2, if_neg h3, if_pos h4, hsrl]
          rfl
        refine ⟨?_, ?_⟩
        · intro hmem
          exfalso
          simp only [keys_node, List.mem_append, List.mem_cons] at hmem
          rcases hmem with hm | hm | hm | hm | hm
          · have := hl_k key hm
            omega
          · omega
          · rw [hkrl] at hm
            simp at hm
          · omega
          · have := hrr_rk key hm
            omega
        · intro k2 v2 l2 r2 heq
          rw [hs] at heq
          injection heq with e1 e2 e3 e4
          subst e1
          subst e3
          subst e4
          refine ⟨?_, ?_⟩
          · intro _ x hx
            simp only [keys_node, keys_nil, List.mem_append, List.mem_cons]
              at hx
            rcases hx with hx | hx
            · have := hl_k x hx
              omega
            · simp at hx
              omega
          · intro h5
            exact absurd h5 (by omega)
      · have hsplit := (ihrl brl).2 sk sv2 sl sr hsrl
        have hs : splay (.node k v l (.node rk rv rl rr)) key =
            .node sk sv2 (.node k v l sl) (.node rk rv sr rr) := by
          rw [splay.eq_def]
          dsimp only
          rw [if_neg h1, if_neg h2, if_neg h3, if_pos h4, hsrl]
          rfl
        refine ⟨?_, ?_⟩
        · intro hmem
          have hkey_rl : key ∈ keys rl := by
            simp only [keys_node, List.mem_append, List.mem_cons] at hmem
            rcases hmem with hm | hm | hm | hm | hm
            · exact absurd (hl_k key hm) (by omega)
            · exact absurd hm h1
            · exact hm
            · exact absurd hm (by omega)
            · exact absurd (hrr_rk key hm) (by omega)
          obtain ⟨w, a, b, hw⟩ := (ihrl brl).1 hkey_rl
          have hkeq : key = sk := by
            rw [hw] at hsrl
            injection hsrl with e1 e2 e3 e4
          subst hkeq
          exact ⟨sv2, .node k v l sl, .node rk rv sr rr, hs⟩
        · intro k2 v2 l2 r2 heq
          rw [hs] at heq
          injection heq with e1 e2 e3 e4
          subst e1
          subst e3
          subst e4
          refine ⟨?_, ?_⟩
          · intro h5 x hx
            simp only [keys_node, List.mem_append, List.mem_cons] at hx
            rcases hx with hx | hx | hx
            · have := hl_k x hx
              omega
            · omega
            · exact hsplit.1 h5 x hx
          · intro h5 x hx
            simp only [keys_node, List.mem_append, List.mem_cons] at hx
            rcases hx with hx | hx | hx
            · exact hsplit.2 h5 x hx
            · omega
            · have := hrr_rk x hx
              omega
    · have hkeq : key = rk := by omega
      have hs : splay (.node k v l (.node rk rv rl rr)) key =
          .node rk rv (.node k v l rl) rr := by
        rw [splay.eq_def]
        dsimp only
        rw [if_neg h1, if_neg h2, if_neg h3, if_neg h4]
        rfl
      refine ⟨?_, ?_⟩
      · intro _
        subst hkeq
        exact ⟨rv, .node k v l rl, rr, hs⟩
      · intro k2 v2 l2 r2 heq
        rw [hs] at heq
        injection heq with e1 e2 e3 e4
        subst e1
        subst e3
        subst e4
        refine ⟨?_, ?_⟩
        · intro _ x hx
          simp only [keys_node, List.mem_append, List.mem_cons] at hx
          rcases hx with hx | hx | hx
          · have := hl_k x hx
            omega
          · omega
          · have := hrl_rk x hx
            omega
        · intro _ x hx
          have := hrr_rk x hx
          omega

theorem inorder_search_snd (t : SplayTree β) (k : Nat) :
    inorder ((t.search k).2) = inorder t := by
  have h := inorder_splay t k
  rcases hs : splay t k with _ | ⟨k2, v2, l2, r2⟩ <;>
    rw [hs] at h <;> unfold SplayTree.search <;> rw [hs]
  · exact h
  · dsimp only
    by_cases hk : k2 = k
    · rw [if_pos hk]; exact h
    · rw [if_neg hk]; exact h

theorem splay_spec (t : SplayTree β) (key : Nat) (hb : IsBST t) :
    (key ∈ keys t → ∃ w a b, splay t key = .node key w a b) ∧
    (∀ k2 v2 l2 r2, splay t key = .node k2 v2 l2 r2 →
      (key ≤ k2 → ∀ x ∈ keys l2, x < key) ∧
      (k2 ≤ key → ∀ x ∈ keys r2, key < x)) := by
  have main := splay.induct
    (motive := fun t key => IsBST t →
      (key ∈ keys t → ∃ w a b, splay t key = .node key w a b) ∧
      (∀ k2 v2 l2 r2, splay t key = .node k2 v2 l2 r2 →
        (key ≤ k2 → ∀ x ∈ keys l2, x < key) ∧
        (k2 ≤ key → ∀ x ∈ keys r2, key < x)))
    ?_ ?_ ?_ ?_ ?_ ?_ ?_ ?_ t key
  · exact main hb
  · intro x _
    refine ⟨?_, ?_⟩
    · intro hm
      simp at hm
    · intro k2 v2 l2 r2 heq
      simp [splay.eq_def] at heq
  · intro v l r key hbb
    have hb' := hbb
    simp only [IsBST] at hb'
    obtain ⟨hl, hr, -, -⟩ := hb'
    have hs : splay (.node key v l r) key = .node key v l r := by
      rw [splay.eq_def]
      dsimp only
      rw [if_pos rfl]
    refine ⟨?_, ?_⟩
    · intro _
      exact ⟨v, l, r, hs⟩
    · intro k2 v2 l2 r2 heq
      rw [hs] at heq
      injection heq with e1 e2 e3 e4
      subst e1
      subst e3
      subst e4
      exact ⟨fun _ x hx => hl x hx, fun _ x hx => hr x hx⟩
  · intro k v r key h1 h2 hbb
    have hb' := hbb
    simp only [IsBST] at hb'
    obtain ⟨-, hr_k, -, -⟩ := hb'
    have hs : splay (.node k v .nil r) key = .node k v .nil r := by
      rw [splay.eq_def]
      dsimp only
      rw [if_neg h1, if_pos h2]
    refine ⟨?_, ?_⟩
    · intro hm
      exfalso
      simp only [keys_node, keys_nil, List.nil_append, List.mem_cons] at hm
      rcases hm with hm | hm
      · omega
      · have := hr_k key hm
        omega
    · intro k2 v2 l2 r2 heq
      rw [hs] at heq
      injection heq with e1 e2 e3 e4
      subst e1
      subst e3
      subst e4
      refine ⟨?_, ?_⟩
      · intro _ x hx
        simp at hx
      · intro h5
        exact absurd h5 (by omega)
  · intro k v r key h1 h2 lk lv ll lr root k2 v2 r2 hroot ihll ihlr hbb
    exact splay_spec_left k v lk lv ll lr r key h1 h2 ihll ihlr hbb
  · intro k v r key h1 h2 lk lv ll lr root hroot ihll ihlr hbb
    exact splay_spec_left k v lk lv ll lr r key h1 h2 ihll ihlr hbb
  · intro k v l key h1 h2 hbb
    have hb' := hbb
    simp only [IsBST] at hb'
    obtain ⟨hl_k, -, -, -⟩ := hb'
    have hs : splay (.node k v l .nil) key = .node k v l .nil := by
      rw [splay.eq_def]
      dsimp only
      rw [if_neg h1, if_neg h2]
    refine ⟨?_, ?_⟩
    · intro hm
      exfalso
      simp only [keys_node, keys_nil, List.mem_append, List.mem_cons] at hm
      rcases hm with hm | hm
      · have := hl_k key hm
        omega
      · simp at hm
        omega
    · intro k2 v2 l2 r2 heq
      rw [hs] at heq
      injection heq with e1 e2 e3 e4
      subst e1
      subst e3
      subst e4
      refine ⟨?_, ?_⟩
      · intro h5
        exact absurd h5 (by omega)
      · intro _ x hx
        simp at hx
  · intro k v l key h1 h2 rk rv rl rr root k2 v2 l2 hroot ihrr ihrl hbb
    exact splay_spec_right k v rk rv l rl rr key h1 h2 ihrl ihrr hbb
  · intro k v l key h1 h2 rk rv rl rr root hroot ihrr ihrl hbb
    exact splay_spec_right k v rk rv l rl rr key h1 h2 ihrl ihrr hbb

/-- C10 — Frame property of `search`: splaying restructures the tree but
the in-order sequence of stored `(key, value)` pairs — in particular the
set of stored pairs — is exactly unchanged, for every tree and key. -/
theorem search_preserves_inorder_pairs (t : SplayTree β) (k : Nat) :
    inorder ((t.search k).2) = inorder t :=
  inorder_search_snd t k

/-- C3 — Splay-to-root on hit: on a binary search tree containing `k`,
`search k` returns the value stored for `k` (the pair `(k, v)` is in the
tree's contents) and the new tree's root key is `k`. -/
theorem search_splays_found_key_to_root {t : SplayTree β} {k : Nat}
    (hb : IsBST t) (hmem : k ∈ keys t) :
    ∃ v t', t.search k = (some v, t') ∧ (k, v) ∈ inorder t ∧
      rootKey t' = some k := by
  obtain ⟨w, a, b, hs⟩ := (splay_spec t k hb).1 hmem
  refine ⟨w, .node k w a b, ?_, ?_, rfl⟩
  · unfold SplayTree.search
    rw [hs]
    dsimp only
    rw [if_pos rfl]
  · have h := inorder_splay t k
    rw [hs] at h
    rw [← h]
    simp

/-- Witness for C3 on a concrete three-node BST. -/
theorem search_splays_found_key_to_root_witness :
    ∃ v t',
      (SplayTree.node 2 20 (.node 1 10 .nil .nil) (.node 3 30 .nil .nil) :
        SplayTree Nat).search 1 = (some v, t') ∧
      (1, v) ∈ inorder (SplayTree.node 2 20 (.node 1 10 .nil .nil)
        (.node 3 30 .nil .nil) : SplayTree Nat) ∧
      rootKey t' = some 1 :=
  search_splays_found_key_to_root (by decide) (by decide)

theorem isBST_insert {t : SplayTree β} (hb : IsBST t) (key : Nat) (value : β) :
    IsBST (t.insert key value) := by
  cases t with
  | nil =>
    simp [SplayTree.insert, IsBST]
  | node k0 v0 l0 r0 =>
    unfold SplayTree.insert
    dsimp only
    rcases hs : splay (.node k0 v0 l0 r0) key with _ | ⟨k2, v2, l2, r2⟩
    · simp [IsBST]
    · have hbs : IsBST (.node k2 v2 l2 r2 : SplayTree β) := by
        rw [← hs]
        exact isBST_splay key hb
      have hsplit := (splay_spec _ key hb).2 k2 v2 l2 r2 hs
      have hbs' := hbs
      simp only [IsBST] at hbs'
      obtain ⟨hl2, hr2, bl2, br2⟩ := hbs'
      dsimp only
      by_cases he : k2 = key
      · rw [if_pos he]
        subst he
        simp only [IsBST]
        exact ⟨hl2, hr2, bl2, br2⟩
      · rw [if_neg he]
        by_cases hlt : key < k2
        · rw [if_pos hlt]
          simp only [IsBST]
          refine ⟨hsplit.1 (le_of_lt hlt), ?_, bl2, ?_⟩
          · intro x hx
            simp only [keys_node, keys_nil, List.nil_append, List.mem_cons]
              at hx
            rcases hx with hx | hx
            · omega
            · have := hr2 x hx
              omega
          · exact ⟨by simp, hr2, trivial, br2⟩
        · rw [if_neg hlt]
          have hgt : k2 < key := by omega
          simp only [IsBST]
          refine ⟨?_, hsplit.2 (le_of_lt hgt), ?_, br2⟩
          · intro x hx
            simp only [keys_node, keys_nil, List.mem_append, List.mem_cons]
              at hx
            rcases hx with hx | hx
            · have := hl2 x hx
              omega
            · simp at hx
              omega
          · exact ⟨hl2, by simp, bl2, trivial⟩

theorem isBST_search_snd {t : SplayTree β} (hb : IsBST t) (k : Nat) :
    IsBST ((t.search k).2) := by
  rw [isBST_iff_sorted] at hb ⊢
  unfold keys
  rw [inorder_search_snd]
  exact hb

theorem applyTreeOp_isBST {t : SplayTree β} (hb : IsBST t) (op : TreeOp β) :
    IsBST (applyTreeOp t op) := by
  rcases op with ⟨k, v⟩ | k
  · exact isBST_insert hb k v
  · exact isBST_search_snd hb k

theorem foldl_treeOps_isBST (ops : List (TreeOp β)) :
    ∀ t : SplayTree β, IsBST t → IsBST (ops.foldl applyTreeOp t) := by
  induction ops with
  | nil => intro t h; exact h
  | cons op rest ih =>
    intro t h
    rw [List.foldl_cons]
    exact ih _ (applyTreeOp_isBST h op)

/-- C4 — BST ordering preserved: starting from the empty tree, after any
sequence of `insert` and `search` calls the in-order key sequence is
strictly increasing (every splay, rotation and split keeps the
binary-search-tree invariant). -/
theorem tree_ops_preserve_strict_key_order (ops : List (TreeOp β)) :
    List.Sorted (· < ·) (keys (ops.foldl applyTreeOp .nil)) := by
  rw [← isBST_iff_sorted]
  exact foldl_treeOps_isBST ops .nil trivial

theorem mem_inorder_insert {t : SplayTree β} {key : Nat} {value : β}
    {p : Nat × β} (hp : p ∈ inorder (t.insert key value)) :
    p = (key, value) ∨ p ∈ inorder t := by
  cases t with
  | nil =>
    simp [SplayTree.insert] at hp
    exact Or.inl hp
  | node k0 v0 l0 r0 =>
    have hio := inorder_splay (.node k0 v0 l0 r0 : SplayTree β) key
    unfold SplayTree.insert at hp
    dsimp only at hp
    rcases hs : splay (.node k0 v0 l0 r0 : SplayTree β) key
      with _ | ⟨k2, v2, l2, r2⟩ <;> rw [hs] at hio hp
    · simp at hp
    · dsimp only at hp
      by_cases he : k2 = key
      · rw [if_pos he] at hp
        subst he
        simp only [inorder_node, List.mem_append, List.mem_cons] at hp
        rcases hp with hp | hp | hp
        · right
          rw [← hio]
          simp [hp]
        · left
          exact hp
        · right
          rw [← hio]
          simp [hp]
      · rw [if_neg he] at hp
        by_cases hlt : key < k2
        · rw [if_pos hlt] at hp
          simp only [inorder_node, inorder_nil, List.nil_append,
            List.mem_append, List.mem_cons] at hp
          rcases hp with hp | hp | hp | hp
          · right
            rw [← hio]
            simp [hp]
          · left
            exact hp
          · right
            rw [← hio]
            simp [hp]
          · right
            rw [← hio]
            simp [hp]
        · rw [if_neg hlt] at hp
          simp only [inorder_node, inorder_nil, List.append_nil,
            List.mem_append, List.mem_cons, List.not_mem_nil, or_false] at hp
          rcases hp with (hp | hp) | hp | hp
          · right
            rw [← hio]
            simp [hp]
          · right
            rw [← hio]
            simp [hp]
          · left
            exact hp
          · right
            rw [← hio]
            simp [hp]

theorem search_hit_mem {t : SplayTree β} {k : Nat} {v : β}
    {t' : SplayTree β} (h : t.search k = (some v, t')) :
    (k, v) ∈ inorder t ∧ inorder t' = inorder t := by
  have hio := inorder_splay t k
  unfold SplayTree.search at h
  rcases hs : splay t k with _ | ⟨k2, v2, l2, r2⟩ <;> rw [hs] at hio h
  · simp at h
  · dsimp only at h
    by_cases he : k2 = k
    · rw [if_pos he] at h
      injection h with h1 h2
      injection h1 with h1
      subst h1
      subst h2
      subst he
      constructor
      · rw [← hio]
        simp
      · exact hio
    · rw [if_neg he] at h
      injection h with h1 h2
      simp at h1

theorem fibonacci_splay_hit {n : Nat} {t t' : SplayTree Nat} {v : Nat}
    (h : t.search n = (some v, t')) : fibonacci_splay n t = (v, t') := by
  rw [fibonacci_splay.eq_def, h]

theorem fibonacci_splay_miss_small {n : Nat} {t t' : SplayTree Nat}
    (h : t.search n = (none, t')) (hn : n < 2) :
    fibonacci_splay n t = (n, t'.insert n n) := by
  rw [fibonacci_splay.eq_def, h]
  dsimp only
  rw [dif_pos hn]

theorem fibonacci_splay_miss_step {n : Nat} {t t' : SplayTree Nat}
    (h : t.search n = (none, t')) (hn : ¬ n < 2) :
    fibonacci_splay n t =
      ((fibonacci_splay (n - 1) t').1 +
        (fibonacci_splay (n - 2) (fibonacci_splay (n - 1) t').2).1,
       ((fibonacci_splay (n - 2) (fibonacci_splay (n - 1) t').2).2).insert n
        ((fibonacci_splay (n - 1) t').1 +
          (fibonacci_splay (n - 2) (fibonacci_splay (n - 1) t').2).1)) := by
  rw [fibonacci_splay.eq_def, h]
  dsimp only
  rw [dif_neg hn]

theorem fibonacci_splay_spec :
    ∀ (n : Nat) (t : SplayTree Nat), IsBST t → Coherent t →
      (fibonacci_splay n t).1 = fib n ∧ IsBST (fibonacci_splay n t).2 ∧
        Coherent (fibonacci_splay n t).2 := by
  intro n
  induction n using Nat.strong_induction_on with
  | _ n ih =>
    intro t hb hc
    rcases hsearch : t.search n with ⟨ov, t2⟩
    have hbt2 : IsBST t2 := by
      have h5 := isBST_search_snd hb n
      rw [hsearch] at h5
      exact h5
    have hct2 : Coherent t2 := by
      have h5 : inorder t2 = inorder t := by
        have h6 := inorder_search_snd t n
        rw [hsearch] at h6
        exact h6
      intro p hp
      exact hc p (h5 ▸ hp)
    have insert_ok : ∀ (t3 : SplayTree Nat), IsBST t3 → Coherent t3 →
        Coherent (t3.insert n (fib n)) := by
      intro t3 _ hc3 p hp
      rcases mem_inorder_insert hp with hp1 | hp1
      · rw [hp1]
      · exact hc3 p hp1
    rcases ov with _ | v
    · by_cases hn : n < 2
      · rw [fibonacci_splay_miss_small hsearch hn]
        have hfib : fib n = n := by
          have h5 : n = 0 ∨ n = 1 := by omega
          rcases h5 with h5 | h5 <;> rw [h5] <;> rfl
        refine ⟨hfib.symm, isBST_insert hbt2 n n, ?_⟩
        have h6 := insert_ok t2 hbt2 hct2
        rw [hfib] at h6
        exact h6
      · rw [fibonacci_splay_miss_step hsearch hn]
        obtain ⟨e1, b1, c1⟩ := ih (n - 1) (by omega) t2 hbt2 hct2
        obtain ⟨e2, b2, c2⟩ := ih (n - 2) (by omega)
          (fibonacci_splay (n - 1) t2).2 b1 c1
        have hsum : (fibonacci_splay (n - 1) t2).1 +
            (fibonacci_splay (n - 2) (fibonacci_splay (n - 1) t2).2).1 =
            fib n := by
          obtain ⟨m, rfl⟩ : ∃ m, n = m + 2 := ⟨n - 2, by omega⟩
          have hm1 : m + 2 - 1 = m + 1 := rfl
          have hm2 : m + 2 - 2 = m := rfl
          simp only [hm1, hm2] at e1 e2 ⊢
          rw [e1, e2, fib]
          omega
        refine ⟨hsum, ?_, ?_⟩
        · simp only
          exact isBST_insert b2 n _
        · simp only
          rw [hsum]
          exact insert_ok _ b2 c2
    · obtain ⟨hmemv, hio⟩ := search_hit_mem hsearch
      rw [fibonacci_splay_hit hsearch]
      exact ⟨hc (n, v) hmemv, hbt2, hct2⟩

/-- C5 counterexample — the claim quantifies over every prior tree
state, but `fibonacci_splay` trusts whatever the tree returns: seeding
the tree with the wrong pair `(5, 999)` (reachable via the public
`insert`) makes `fibonacci_splay(5, tree)` return `999`, not `fib 5 = 5`. -/
theorem fibonacci_splay_trusts_seeded_tree :
    (fibonacci_splay 5 (.node 5 999 .nil .nil)).1 = 999 ∧ fib 5 = 5 ∧
      (fibonacci_splay 5 (.node 5 999 .nil .nil)).1 ≠ fib 5 := by
  have h : (SplayTree.node 5 999 .nil .nil : SplayTree Nat).search 5 =
      (some 999, .node 5 999 .nil .nil) := by decide
  rw [fibonacci_splay_hit h]
  exact ⟨rfl, rfl, by decide⟩

/-- C5 amended — for every `n` and every prior tree state that is a
valid memo table (a BST whose stored pairs all satisfy `v = fib k`, the
empty tree included), `fibonacci_splay n tree` returns the `n`-th
Fibonacci number. -/
theorem fibonacci_splay_correct_on_coherent_tree (n : Nat)
    (t : SplayTree Nat) (hb : IsBST t) (hc : Coherent t) :
    (fibonacci_splay n t).1 = fib n :=
  (fibonacci_splay_spec n t hb hc).1

/-- Witness for the C5 amended theorem: from an empty tree,
`fibonacci_splay 10` returns `fib 10 = 55`. -/
theorem fibonacci_splay_correct_on_coherent_tree_witness :
    (fibonacci_splay 10 .nil).1 = fib 10 ∧ fib 10 = 55 :=
  ⟨fibonacci_splay_correct_on_coherent_tree 10 .nil (by decide) (by decide),
    by decide⟩

end Task2
